import Mathlib

/-!
Verification of the `lintransforms` library: a shallow embedding of its
data model (n-dimensional arrays over exact rationals), its Transformation
variants, its Solver variants and its `Pipeline`, together with theorems
settling the specification claims.  Machine floats are idealised as `ℚ`
(exact arithmetic); Python exceptions are modelled by an explicit
exception type and `Except`-valued functions.
-/

set_option maxHeartbeats 1000000

/-- Python exception categories observable in this library:
`np.linalg.LinAlgError` (carrying its message), `ValueError`, `IndexError`,
`TypeError` and `AttributeError`. -/
inductive PyExc where
  | linAlgError (msg : String)
  | valueError (msg : String)
  | indexError (msg : String)
  | typeError (msg : String)
  | attributeError (msg : String)
deriving DecidableEq, Repr

/-- Whether an exception is in the linear-algebra category
(`np.linalg.LinAlgError`), the only category `Pipeline.solve` catches. -/
def PyExc.isLinAlg : PyExc → Bool
  | .linAlgError _ => true
  | _ => false

/-- Python `str(e)` on a caught exception: its message. -/
def PyExc.str : PyExc → String
  | .linAlgError m => m
  | .valueError m => m
  | .indexError m => m
  | .typeError m => m
  | .attributeError m => m

/-- An n-dimensional numpy array, idealised: a shape together with a
value function on multi-indices (values at out-of-range indices are
irrelevant; array equality is extensional on valid indices). -/
structure NDArray where
  shape : List ℕ
  val : List ℕ → ℚ

/-- A multi-index is valid for a shape when it has the same length and is
pointwise within bounds. -/
def validIdx : List ℕ → List ℕ → Bool
  | [], [] => true
  | n :: sh, i :: idx => decide (i < n) && validIdx sh idx
  | _, _ => false

/-- Extensional equality of arrays: same shape and same values at every
valid multi-index. -/
def NDArray.Eqv (a b : NDArray) : Prop :=
  a.shape = b.shape ∧ ∀ idx, validIdx a.shape idx = true → a.val idx = b.val idx

/-- All valid multi-indices of a shape, enumerated. -/
def allIdx : List ℕ → List (List ℕ)
  | [] => [[]]
  | n :: sh => (List.range n).flatMap (fun i => (allIdx sh).map (fun t => i :: t))

/-- Boolean (decidable) version of `NDArray.Eqv` for concrete arrays. -/
def NDArray.beqOn (a b : NDArray) : Bool :=
  a.shape == b.shape && (allIdx a.shape).all (fun idx => a.val idx == b.val idx)

theorem mem_allIdx (sh : List ℕ) : ∀ idx, idx ∈ allIdx sh ↔ validIdx sh idx = true := by
  induction sh with
  | nil =>
      intro idx
      cases idx with
      | nil => simp [allIdx, validIdx]
      | cons i t => simp [allIdx, validIdx]
  | cons n sh ih =>
      intro idx
      cases idx with
      | nil =>
          simp [allIdx, validIdx]
      | cons i t =>
          simp only [allIdx, List.mem_flatMap, List.mem_map, List.mem_range, validIdx,
            Bool.and_eq_true, decide_eq_true_eq]
          constructor
          · rintro ⟨j, hj, t', ht', heq⟩
            cases heq
            exact ⟨hj, (ih t).mp ht'⟩
          · rintro ⟨hi, ht⟩
            exact ⟨i, hi, t, (ih t).mpr ht, rfl⟩

theorem NDArray.eqv_of_beqOn {a b : NDArray} (h : a.beqOn b = true) : a.Eqv b := by
  unfold NDArray.beqOn at h
  rw [Bool.and_eq_true] at h
  obtain ⟨h1, h2⟩ := h
  refine ⟨by simpa using h1, ?_⟩
  intro idx hv
  have := List.all_eq_true.mp h2 idx ((mem_allIdx a.shape idx).mpr hv)
  simpa using this

/-! ## Pipeline: transformations side (`Pipeline.apply`) -/

/-- A transformation as `Pipeline.apply` uses it: its `apply` method, an
array-to-array map that may raise (shape or linear-algebra errors). -/
def TransformFn : Type := NDArray → Except PyExc NDArray

/-- Embedding of `Pipeline.apply` (pipeline.py lines 18-21): the loop
`for transform in self.transformations: x = transform.apply(x)`, where an
exception raised by any stage propagates. -/
def Pipeline.apply (ts : List TransformFn) (x : NDArray) : Except PyExc NDArray :=
  match ts with
  | [] => .ok x
  | t :: rest =>
      match t x with
      | .ok x1 => Pipeline.apply rest x1
      | .error e => .error e

/-- Left-to-right sequential (Kleisli) composition of a list of
transformations: the output of stage i is fed to stage i+1. -/
def seqComp (ts : List TransformFn) : NDArray → Except PyExc NDArray :=
  ts.foldr (fun t k => fun a => (t a).bind k) (fun a => .ok a)

/-- C3: `Pipeline.apply` equals the left-to-right sequential composition of
the transformation list (stage i feeds stage i+1), and on an empty
transformation list it returns the input unchanged. -/
theorem pipeline_apply_is_seq_composition :
    (∀ ts x, Pipeline.apply ts x = seqComp ts x) ∧
    (∀ x, Pipeline.apply [] x = .ok x) := by
  constructor
  · intro ts
    induction ts with
    | nil => intro x; rfl
    | cons t rest ih =>
        intro x
        simp only [Pipeline.apply, seqComp, List.foldr]
        cases t x with
        | ok x1 => simpa [Except.bind] using ih x1
        | error e => simp [Except.bind]
  · intro x; rfl

/-! ## Pipeline: solvers side (`Pipeline.solve`) -/

/-- The data-argument signature of a solver's `solve` method: either one
data parameter (`def solve(self, x)`, as in `SolveOrthogonalProjection`)
or two (`def solve(self, x, y)`, as in every other solver). -/
inductive SolveFn (α β : Type) where
  | unary (f : α → Except PyExc β)
  | binary (f : α → α → Except PyExc β)

/-- A solver as `Pipeline.solve` sees it: its `name` property and its
`solve` method. -/
structure PySolver (α β : Type) where
  name : String
  solve : SolveFn α β

/-- The call `solver.solve(x, y)` performed by `Pipeline.solve`
(pipeline.py line 27): a two-argument `solve` runs its body; a
one-argument `solve` receives one positional argument too many, so the
call raises `TypeError` before any body code runs. -/
def callSolve2 {α β : Type} (s : PySolver α β) (x y : α) : Except PyExc β :=
  match s.solve with
  | .unary _ => .error (.typeError "solve() takes 2 positional arguments but 3 were given")
  | .binary f => f x y

/-- An entry of the `solutions` mapping: a solver's returned solution, or
the stringified message of a caught linear-algebra error. -/
inductive SolEntry (β : Type) where
  | sol (v : β)
  | errMsg (s : String)
deriving DecidableEq, Repr

/-- The `solutions` mapping: a Python dict keyed by solver name, kept in
insertion order. -/
def SolDict (β : Type) : Type := List (String × SolEntry β)

/-- Python dict assignment `d[k] = v`: replace the value of an existing
key in place, otherwise append the new binding. -/
def dictSet {β : Type} : SolDict β → String → SolEntry β → SolDict β
  | [], k, v => [(k, v)]
  | p :: rest, k, v => if p.1 == k then (k, v) :: rest else p :: dictSet rest k v

/-- Python dict lookup `d[k]` (as an option). -/
def dictFind {β : Type} : SolDict β → String → Option (SolEntry β)
  | [], _ => none
  | p :: rest, k => if p.1 == k then some p.2 else dictFind rest k

/-- Number of entries of the mapping stored under a given key. -/
def dictCount {β : Type} (d : SolDict β) (k : String) : ℕ :=
  d.countP (fun p => p.1 == k)

/-- Keys of the mapping are pairwise distinct (true of every Python dict). -/
def dictNodupKeys {β : Type} (d : SolDict β) : Prop :=
  (d.map Prod.fst).Nodup

/-- An invocation outcome `Pipeline.solve` absorbs: a returned value, or a
raised error of the linear-algebra category. -/
def okOrLin {β : Type} : Except PyExc β → Bool
  | .ok _ => true
  | .error e => e.isLinAlg

/-- The entry `Pipeline.solve` records for a solver it absorbs: the
returned solution on success, `str(e)` on a caught error. -/
def entryOf {α β : Type} (s : PySolver α β) (x y : α) : SolEntry β :=
  match callSolve2 s x y with
  | .ok v => .sol v
  | .error e => .errMsg e.str

/-- The loop body of `Pipeline.solve` (pipeline.py lines 23-30), with the
accumulated `solutions` dict made explicit: try `solver.solve(x, y)`;
store the result under `solver.name`; on `np.linalg.LinAlgError e` store
`str(e)` instead; any other exception propagates, ending the loop. -/
def pipelineSolveAux {α β : Type} (x y : α) :
    List (PySolver α β) → SolDict β → Except PyExc (SolDict β)
  | [], acc => .ok acc
  | s :: rest, acc =>
      match callSolve2 s x y with
      | .ok v => pipelineSolveAux x y rest (dictSet acc s.name (.sol v))
      | .error e =>
          if e.isLinAlg then pipelineSolveAux x y rest (dictSet acc s.name (.errMsg e.str))
          else .error e

/-- Embedding of `Pipeline.solve` (pipeline.py lines 23-30). -/
def Pipeline.solve {α β : Type} (solvers : List (PySolver α β)) (x y : α) :
    Except PyExc (SolDict β) :=
  pipelineSolveAux x y solvers []

/-- The last solver of the list carrying a given name, if any (the one
whose result survives in the mapping). -/
def lastNamed {α β : Type} : List (PySolver α β) → String → Option (PySolver α β)
  | [], _ => none
  | s :: rest, n =>
      match lastNamed rest n with
      | some t => some t
      | none => if s.name == n then some s else none

theorem dictFind_dictSet_self {β : Type} (d : SolDict β) (k : String) (v : SolEntry β) :
    dictFind (dictSet d k v) k = some v := by
  induction d with
  | nil => simp [dictSet, dictFind]
  | cons p rest ih =>
      by_cases hp : p.1 == k
      · simp [dictSet, dictFind, hp]
      · simp only [dictSet, hp, Bool.false_eq_true, if_false]
        simp [dictFind, hp, ih]

theorem dictFind_dictSet_ne {β : Type} (d : SolDict β) {k k' : String} (h : k' ≠ k)
    (v : SolEntry β) : dictFind (dictSet d k v) k' = dictFind d k' := by
  induction d with
  | nil =>
      have : (k == k') = false := by
        simpa using fun hkk => h hkk.symm
      simp [dictSet, dictFind, this]
  | cons p rest ih =>
      by_cases hp : p.1 == k
      · have hpk : p.1 = k := by simpa using hp
        have h1 : (k == k') = false := by
          simpa using fun hkk => h hkk.symm
        have h2 : (p.1 == k') = false := by
          rw [hpk]; exact h1
        simp [dictSet, dictFind, hp, h1, h2]
      · simp only [dictSet, hp, Bool.false_eq_true, if_false]
        by_cases hq : p.1 == k'
        · simp [dictFind, hq]
        · simp [dictFind, hq, ih]

theorem mem_keys_dictSet {β : Type} (d : SolDict β) (k a : String) (v : SolEntry β)
    (ha : a ∈ (dictSet d k v).map Prod.fst) : a ∈ d.map Prod.fst ∨ a = k := by
  induction d with
  | nil =>
      simp [dictSet] at ha
      exact Or.inr ha
  | cons p rest ih =>
      by_cases hp : p.1 == k
      · simp only [dictSet, hp, if_true] at ha
        simp only [List.map_cons, List.mem_cons] at ha ⊢
        rcases ha with h1 | h1
        · exact Or.inr h1
        · exact Or.inl (Or.inr h1)
      · simp only [dictSet, hp, Bool.false_eq_true, if_false] at ha
        simp only [List.map_cons, List.mem_cons] at ha ⊢
        rcases ha with h1 | h1
        · exact Or.inl (Or.inl h1)
        · rcases ih h1 with h2 | h2
          · exact Or.inl (Or.inr h2)
          · exact Or.inr h2

theorem dictNodupKeys_dictSet {β : Type} (d : SolDict β) (k : String) (v : SolEntry β)
    (h : dictNodupKeys d) : dictNodupKeys (dictSet d k v) := by
  induction d with
  | nil => simp [dictSet, dictNodupKeys]
  | cons p rest ih =>
      unfold dictNodupKeys at h ⊢
      simp only [List.map_cons, List.nodup_cons] at h
      obtain ⟨hnm, hnd⟩ := h
      by_cases hp : p.1 == k
      · have hpk : p.1 = k := by simpa using hp
        simp only [dictSet, hp, if_true, List.map_cons, List.nodup_cons]
        exact ⟨by rw [← hpk]; exact hnm, hnd⟩
      · simp only [dictSet, hp, Bool.false_eq_true, if_false, List.map_cons, List.nodup_cons]
        refine ⟨?_, ih hnd⟩
        intro hmem
        rcases mem_keys_dictSet rest k p.1 v hmem with h1 | h1
        · exact hnm h1
        · rw [h1] at hp; simp at hp

theorem dictCount_eq_one_of_find {β : Type} (d : SolDict β) (k : String)
    (hnd : dictNodupKeys d) (hf : (dictFind d k).isSome = true) : dictCount d k = 1 := by
  induction d with
  | nil => simp [dictFind] at hf
  | cons p rest ih =>
      unfold dictNodupKeys at hnd
      simp only [List.map_cons, List.nodup_cons] at hnd
      obtain ⟨hnm, hnd'⟩ := hnd
      by_cases hp : p.1 == k
      · have hpk : p.1 = k := by simpa using hp
        have hzero : rest.countP (fun q => q.1 == k) = 0 := by
          apply List.countP_eq_zero.mpr
          intro q hq hqk
          apply hnm
          have : q.1 = k := by simpa using hqk
          rw [hpk, ← this]
          exact List.mem_map_of_mem Prod.fst hq
        simp [dictCount, List.countP_cons, hp, hzero]
      · simp only [dictFind, hp, Bool.false_eq_true, if_false] at hf
        have := ih hnd' hf
        simp [dictCount, List.countP_cons, hp] at this ⊢
        exact this

theorem lastNamed_cons {α β : Type} (s : PySolver α β) (rest : List (PySolver α β))
    (n : String) :
    lastNamed (s :: rest) n =
      (match lastNamed rest n with
       | some t => some t
       | none => if s.name == n then some s else none) := rfl

theorem lastNamed_append {α β : Type} (l1 l2 : List (PySolver α β)) (n : String) :
    lastNamed (l1 ++ l2) n =
      (match lastNamed l2 n with
       | some t => some t
       | none => lastNamed l1 n) := by
  induction l1 with
  | nil =>
      simp only [List.nil_append]
      cases lastNamed l2 n <;> simp [lastNamed]
  | cons s rest ih =>
      rw [List.cons_append, lastNamed_cons, ih, lastNamed_cons]
      cases lastNamed l2 n <;> cases lastNamed rest n <;> simp

theorem lastNamed_eq_none {α β : Type} (l : List (PySolver α β)) (n : String)
    (h : ∀ t ∈ l, t.name ≠ n) : lastNamed l n = none := by
  induction l with
  | nil => rfl
  | cons s rest ih =>
      have h1 : lastNamed rest n = none := ih (fun t ht => h t (List.mem_cons_of_mem s ht))
      have h2 : (s.name == n) = false := by
        simpa using h s (List.mem_cons_self s rest)
      simp [lastNamed, h1, h2]

theorem lastNamed_isSome_of_mem {α β : Type} {l : List (PySolver α β)} {s : PySolver α β}
    (h : s ∈ l) : ∃ t, lastNamed l s.name = some t := by
  induction l with
  | nil => simp at h
  | cons a rest ih =>
      rcases List.mem_cons.mp h with h1 | h1
      · subst h1
        cases hr : lastNamed rest s.name with
        | some t => exact ⟨t, by rw [lastNamed_cons, hr]⟩
        | none =>
            refine ⟨s, ?_⟩
            rw [lastNamed_cons, hr]
            simp
      · obtain ⟨t, ht⟩ := ih h1
        exact ⟨t, by rw [lastNamed_cons, ht]⟩

theorem solveAux_characterization {α β : Type} (x y : α) :
    ∀ (solvers : List (PySolver α β)) (acc : SolDict β),
      (∀ s ∈ solvers, okOrLin (callSolve2 s x y) = true) →
      ∃ d, pipelineSolveAux x y solvers acc = .ok d ∧
        (∀ n, dictFind d n =
          (match lastNamed solvers n with
           | some s => some (entryOf s x y)
           | none => dictFind acc n)) ∧
        (dictNodupKeys acc → dictNodupKeys d) := by
  intro solvers
  induction solvers with
  | nil =>
      intro acc _
      exact ⟨acc, rfl, fun n => by simp [lastNamed], fun h => h⟩
  | cons s rest ih =>
      intro acc h
      have hs := h s (List.mem_cons_self s rest)
      have hrest : ∀ t ∈ rest, okOrLin (callSolve2 t x y) = true :=
        fun t ht => h t (List.mem_cons_of_mem s ht)
      have hset : ∀ (w : SolEntry β), entryOf s x y = w →
          ∃ d, pipelineSolveAux x y rest (dictSet acc s.name w) = .ok d ∧
            (∀ n, dictFind d n =
              (match lastNamed (s :: rest) n with
               | some t => some (entryOf t x y)
               | none => dictFind acc n)) ∧
            (dictNodupKeys acc → dictNodupKeys d) := by
        intro w hw
        obtain ⟨d, hd, hfind, hnd⟩ := ih (dictSet acc s.name w) hrest
        refine ⟨d, hd, ?_, fun ha => hnd (dictNodupKeys_dictSet acc s.name w ha)⟩
        intro n
        rw [lastNamed_cons]
        cases hl : lastNamed rest n with
        | some t =>
            have := hfind n
            rw [hl] at this
            exact this
        | none =>
            have hthis := hfind n
            rw [hl] at hthis
            by_cases hn : s.name == n
            · have heq : s.name = n := by simpa using hn
              rw [hthis]
              subst heq
              simp [dictFind_dictSet_self, hw]
            · have hne : n ≠ s.name := by
                intro he
                rw [he] at hn
                simp at hn
              rw [hthis, dictFind_dictSet_ne acc hne]
              simp [hn]
      cases hc : callSolve2 s x y with
      | ok v =>
          obtain ⟨d, hd, hfind, hnd⟩ := hset (.sol v) (by unfold entryOf; rw [hc])
          exact ⟨d, by simp [pipelineSolveAux, hc, hd], hfind, hnd⟩
      | error e =>
          have hlin : e.isLinAlg = true := by
            rw [hc] at hs
            simpa [okOrLin] using hs
          obtain ⟨d, hd, hfind, hnd⟩ := hset (.errMsg e.str) (by unfold entryOf; rw [hc])
          exact ⟨d, by simp [pipelineSolveAux, hc, hlin, hd], hfind, hnd⟩

theorem solveAux_propagates {α β : Type} (x y : α) (e : PyExc) (he : e.isLinAlg = false)
    (s : PySolver α β) (hs : callSolve2 s x y = .error e) :
    ∀ (pre post : List (PySolver α β)) (acc : SolDict β),
      (∀ t ∈ pre, okOrLin (callSolve2 t x y) = true) →
      pipelineSolveAux x y (pre ++ s :: post) acc = .error e := by
  intro pre
  induction pre with
  | nil =>
      intro post acc _
      simp [pipelineSolveAux, hs, he]
  | cons t rest ih =>
      intro post acc h
      have ht := h t (List.mem_cons_self t rest)
      have hr : ∀ u ∈ rest, okOrLin (callSolve2 u x y) = true :=
        fun u hu => h u (List.mem_cons_of_mem t hu)
      cases hc : callSolve2 t x y with
      | ok v =>
          simpa [pipelineSolveAux, hc] using ih post (dictSet acc t.name (.sol v)) hr
      | error e1 =>
          have hl : e1.isLinAlg = true := by
            rw [hc] at ht
            simpa [okOrLin] using ht
          simpa [pipelineSolveAux, hc, hl] using
            ih post (dictSet acc t.name (.errMsg e1.str)) hr

theorem solveAux_ok_all_okOrLin {α β : Type} (x y : α) :
    ∀ (solvers : List (PySolver α β)) (acc d : SolDict β),
      pipelineSolveAux x y solvers acc = .ok d →
      ∀ s ∈ solvers, okOrLin (callSolve2 s x y) = true := by
  intro solvers
  induction solvers with
  | nil =>
      intro acc d _ s hs
      simp at hs
  | cons t rest ih =>
      intro acc d hd s hs
      simp only [pipelineSolveAux] at hd
      cases hc : callSolve2 t x y with
      | ok v =>
          rw [hc] at hd
          simp only at hd
          rcases List.mem_cons.mp hs with h1 | h1
          · subst h1
            simp [okOrLin, hc]
          · exact ih _ d hd s h1
      | error e =>
          rw [hc] at hd
          simp only at hd
          by_cases hl : e.isLinAlg
          · rw [if_pos hl] at hd
            rcases List.mem_cons.mp hs with h1 | h1
            · subst h1
              simp [okOrLin, hc, hl]
            · exact ih _ d hd s h1
          · rw [if_neg hl] at hd
            cases hd

/-- C1: under inputs on which every solver either returns or raises a
linear-algebra error, `Pipeline.solve` returns a mapping in which every
solver's name is present, the surviving entry under a name is the outcome
of the last solver carrying it (each solver ran, in list order), and a
linear-algebra failure is recorded as its stringified message; whereas an
exception of any other category raised by some solver is not caught and
propagates out of `Pipeline.solve`, whatever solvers follow. -/
theorem pipeline_solve_narrow_catch {α β : Type} :
    (∀ (solvers : List (PySolver α β)) (x y : α),
      (∀ s ∈ solvers, okOrLin (callSolve2 s x y) = true) →
      ∃ d, Pipeline.solve solvers x y = .ok d ∧
        (∀ s ∈ solvers, (dictFind d s.name).isSome = true) ∧
        (∀ n s, lastNamed solvers n = some s → dictFind d n = some (entryOf s x y)) ∧
        (∀ n s m, lastNamed solvers n = some s →
          callSolve2 s x y = .error (.linAlgError m) → dictFind d n = some (.errMsg m))) ∧
    (∀ (pre post : List (PySolver α β)) (s : PySolver α β) (x y : α) (e : PyExc),
      (∀ t ∈ pre, okOrLin (callSolve2 t x y) = true) →
      callSolve2 s x y = .error e → e.isLinAlg = false →
      Pipeline.solve (pre ++ s :: post) x y = .error e) := by
  constructor
  · intro solvers x y h
    obtain ⟨d, hd, hfind, _⟩ := solveAux_characterization x y solvers [] h
    refine ⟨d, hd, ?_, ?_, ?_⟩
    · intro s hs
      obtain ⟨t, ht⟩ := lastNamed_isSome_of_mem hs
      have := hfind s.name
      rw [ht] at this
      rw [this]
      rfl
    · intro n s hlast
      have := hfind n
      rw [hlast] at this
      exact this
    · intro n s m hlast hc
      have := hfind n
      rw [hlast] at this
      simp only at this
      rw [this]
      unfold entryOf
      rw [hc]
      rfl
  · intro pre post s x y e hpre hc he
    exact solveAux_propagates x y e he s hc pre post [] hpre

/-- Synthetic solver used to witness the pipeline theorems: name `"A"`,
returns its first argument. -/
def wOk : PySolver ℚ ℚ := ⟨"A", .binary fun x _ => .ok x⟩

/-- Synthetic solver used to witness the pipeline theorems: name `"B"`,
always raises a linear-algebra error. -/
def wLin : PySolver ℚ ℚ := ⟨"B", .binary fun _ _ => .error (.linAlgError "Matrix is singular")⟩

/-- Synthetic solver used to witness the pipeline theorems: name `"C"`,
always raises a `ValueError` (not of the linear-algebra category). -/
def wBad : PySolver ℚ ℚ := ⟨"C", .binary fun _ _ => .error (.valueError "bad input")⟩

/-- Synthetic solver used to witness the pipeline theorems: a second
solver also named `"B"`, returning its second argument. -/
def wOkB : PySolver ℚ ℚ := ⟨"B", .binary fun _ y => .ok y⟩

theorem pipeline_solve_narrow_catch_witness :
    ((∀ s ∈ [wOk, wLin], okOrLin (callSolve2 s (1 : ℚ) 2) = true) ∧
      ∃ d, Pipeline.solve [wOk, wLin] (1 : ℚ) 2 = .ok d ∧
        (∀ s ∈ [wOk, wLin], (dictFind d s.name).isSome = true) ∧
        (∀ n s, lastNamed [wOk, wLin] n = some s → dictFind d n = some (entryOf s 1 2)) ∧
        (∀ n s m, lastNamed [wOk, wLin] n = some s →
          callSolve2 s (1 : ℚ) 2 = .error (.linAlgError m) → dictFind d n = some (.errMsg m))) ∧
    ((∀ t ∈ [wOk], okOrLin (callSolve2 t (1 : ℚ) 2) = true) ∧
      Pipeline.solve [wOk, wBad, wLin] (1 : ℚ) 2 = .error (.valueError "bad input")) := by
  constructor
  · exact ⟨by decide, (@pipeline_solve_narrow_catch ℚ ℚ).1 [wOk, wLin] 1 2 (by decide)⟩
  · refine ⟨by decide, ?_⟩
    exact (@pipeline_solve_narrow_catch ℚ ℚ).2 [wOk] [wLin] wBad 1 2
      (.valueError "bad input") (by decide) rfl rfl

/-- C9: when a pipeline's solver list contains two solvers with the same
name (and none after them carries it), and `Pipeline.solve` returns a
mapping, that mapping holds exactly one entry under the shared name, whose
value is the outcome (solution or stringified linear-algebra error) of the
later of the two solvers. -/
theorem pipeline_solve_duplicate_name_last_wins {α β : Type}
    (solvers : List (PySolver α β)) (x y : α) (d : SolDict β)
    (p1 p2 p3 : List (PySolver α β)) (s1 s2 : PySolver α β) (n : String)
    (hsplit : solvers = p1 ++ s1 :: (p2 ++ s2 :: p3))
    (h1 : s1.name = n) (h2 : s2.name = n)
    (h3 : ∀ t ∈ p3, t.name ≠ n)
    (hok : Pipeline.solve solvers x y = .ok d) :
    dictCount d n = 1 ∧ dictFind d n = some (entryOf s2 x y) := by
  have hall := solveAux_ok_all_okOrLin x y solvers [] d hok
  obtain ⟨d1, hd1, hfind, hnd⟩ := solveAux_characterization x y solvers [] hall
  have hdd : d1 = d := by
    rw [Pipeline.solve] at hok
    rw [hok] at hd1
    exact (Except.ok.inj hd1).symm
  subst hdd
  have hp3 : lastNamed p3 n = none := lastNamed_eq_none p3 n h3
  have hs2 : lastNamed (s2 :: p3) n = some s2 := by
    rw [lastNamed_cons, hp3]
    simp [h2]
  have hmid : lastNamed (p2 ++ s2 :: p3) n = some s2 := by
    rw [lastNamed_append, hs2]
  have htail : lastNamed (s1 :: (p2 ++ s2 :: p3)) n = some s2 := by
    rw [lastNamed_cons, hmid]
  have hlast : lastNamed solvers n = some s2 := by
    rw [hsplit, lastNamed_append, htail]
  have hfound : dictFind d1 n = some (entryOf s2 x y) := by
    have := hfind n
    rw [hlast] at this
    exact this
  refine ⟨?_, hfound⟩
  apply dictCount_eq_one_of_find d1 n (hnd (by simp [dictNodupKeys]))
  rw [hfound]
  rfl

theorem pipeline_solve_duplicate_name_last_wins_witness :
    Pipeline.solve [wOkB, wLin] (1 : ℚ) 2 =
      .ok ([("B", SolEntry.errMsg "Matrix is singular")] : SolDict ℚ) ∧
    (dictCount ([("B", SolEntry.errMsg "Matrix is singular")] : SolDict ℚ) "B" = 1 ∧
      dictFind ([("B", SolEntry.errMsg "Matrix is singular")] : SolDict ℚ) "B" =
        some (entryOf wLin (1 : ℚ) 2)) := by
  have hok : Pipeline.solve [wOkB, wLin] (1 : ℚ) 2 =
      .ok ([("B", SolEntry.errMsg "Matrix is singular")] : SolDict ℚ) := rfl
  exact ⟨hok, pipeline_solve_duplicate_name_last_wins [wOkB, wLin] 1 2
    ([("B", SolEntry.errMsg "Matrix is singular")] : SolDict ℚ) [] [] []
    wOkB wLin "B" rfl rfl rfl (by simp) hok⟩

/-- Embedding of `SolveOrthogonalProjection` as a pipeline participant
(solvers.py lines 85-105): its `name` property is
`"Orthogonal Projection"` and its `solve` method takes a single data
argument (`def solve(self, x)`); the method body is abstracted by `f`,
since the two-argument call from `Pipeline.solve` raises before the body
can run. -/
def orthProjSolver {α β : Type} (f : α → Except PyExc β) : PySolver α β :=
  ⟨"Orthogonal Projection", .unary f⟩

/-- C10: `SolveOrthogonalProjection.solve` takes a single data argument
while `Pipeline.solve` calls `solver.solve(x, y)`, so a pipeline whose
solver list reaches a `SolveOrthogonalProjection` (every earlier solver
returning or raising a linear-algebra error) fails with a `TypeError`
arity error, which is not of the linear-algebra category and therefore
propagates to the caller instead of being recorded in the mapping —
whatever the method body `f` would compute. -/
theorem pipeline_solve_orth_projection_arity_error {α β : Type}
    (f : α → Except PyExc β) (pre post : List (PySolver α β)) (x y : α)
    (hpre : ∀ t ∈ pre, okOrLin (callSolve2 t x y) = true) :
    Pipeline.solve (pre ++ orthProjSolver f :: post) x y =
      .error (.typeError "solve() takes 2 positional arguments but 3 were given") ∧
    PyExc.isLinAlg (.typeError "solve() takes 2 positional arguments but 3 were given")
      = false := by
  refine ⟨?_, rfl⟩
  exact solveAux_propagates x y
    (.typeError "solve() takes 2 positional arguments but 3 were given") rfl
    (orthProjSolver f) rfl pre post [] hpre

theorem pipeline_solve_orth_projection_arity_error_witness :
    (∀ t ∈ [wOk], okOrLin (callSolve2 t (1 : ℚ) 2) = true) ∧
    (Pipeline.solve [wOk, orthProjSolver (fun _ => .ok (0 : ℚ))] (1 : ℚ) 2 =
        .error (.typeError "solve() takes 2 positional arguments but 3 were given") ∧
      PyExc.isLinAlg (.typeError "solve() takes 2 positional arguments but 3 were given")
        = false) :=
  ⟨by decide,
    pipeline_solve_orth_projection_arity_error (fun _ => .ok (0 : ℚ)) [wOk] [] 1 2 (by decide)⟩

/-! ## The MLP solver (`solvers/nn.py`) -/

/-- Hyperparameters stored by the `MLP` solver dataclass
(solvers/nn.py lines 31-44); the activation and loss modules live inside
the opaque training primitive. -/
structure MLPParams where
  input_dim : ℕ
  output_dim : ℕ
  hidden_layers : List ℕ
  lr : ℚ
  epochs : ℕ
  batch_size : ℕ
  verbose : Bool

/-- The cast `torch.tensor(x).float().detach().numpy()` performed by the
return statement of `MLP.solve`: under the exact-arithmetic idealisation
of machine floats it preserves the shape and the values of the array. -/
def floatCast (x : NDArray) : NDArray := { shape := x.shape, val := x.val }

/-- Embedding of `MLP.solve` (solvers/nn.py lines 46-70): the
gradient-descent loop over epochs and batches is the external training
primitive (spec section 1 treats it as an opaque collaborator), abstracted
here as `train`, producing the trained model of opaque type `μ`; the
method stores that model (`self.model = model`, the first component) and
returns `(torch.tensor(x).float()).detach().numpy()` — the input cast to
floating point. -/
def MLP.solve {μ : Type} (params : MLPParams) (train : MLPParams → NDArray → NDArray → μ)
    (x y : NDArray) : μ × NDArray :=
  (train params x y, floatCast x)

/-- C5: the array returned by `MLP.solve` is the input cast to floating
point — unchanged in shape and values — and is independent of `y`, of the
hyperparameters and of the training primitive and its result. -/
theorem mlp_solve_returns_input {μ1 μ2 : Type} (params1 params2 : MLPParams)
    (train1 : MLPParams → NDArray → NDArray → μ1)
    (train2 : MLPParams → NDArray → NDArray → μ2)
    (x y1 y2 : NDArray) :
    (MLP.solve params1 train1 x y1).2.shape = x.shape ∧
    (∀ idx, (MLP.solve params1 train1 x y1).2.val idx = x.val idx) ∧
    (MLP.solve params1 train1 x y1).2 = (MLP.solve params2 train2 x y2).2 :=
  ⟨rfl, fun _ => rfl, rfl⟩

/-! ## Transformation `name` properties (C6) -/

/-- Python float formatting inside the f-string names, idealised for
exact rationals: integral values print with a trailing `.0` as Python
floats do. -/
def pyFloatRepr (q : ℚ) : String :=
  if q.den = 1 then toString q.num ++ ".0" else toString q

/-- Embedding of the `Dilation.name` property (transformations.py lines
116-118): the f-string `"Dilation(factor={self.factor})"`, a pure
function of the stored factor. -/
def dilationNameProp (factor : ℚ) : String :=
  "Dilation(factor=" ++ pyFloatRepr factor ++ ")"

/-- The instance attributes of a `Projection` object: the dataclass
declares the single field `projection` (transformations.py line 160). -/
def projectionAttrs : List String := ["projection"]

/-- Embedding of the `Projection.name` property (transformations.py lines
167-169): it evaluates the f-string `"Projection(axis={self.axis})"`,
whose interpolation looks up the attribute `axis` on the instance;
Python attribute lookup raises `AttributeError` when the name is not
among the object's attributes, so the success branch is unreachable (the
string it would build cannot even be formed, there being no `axis`
value — the placeholder below stands where the interpolated value would
go). -/
def projectionNameProp : Except PyExc String :=
  if "axis" ∈ projectionAttrs then .ok "Projection(axis=<unreachable>)"
  else .error (.attributeError "Projection object has no attribute axis")

/-- C6 (code bug, evaluated): accessing `name` on a `Projection` raises
`AttributeError` — the property formats `self.axis`, but the class stores
no `axis` attribute — so the claim's "accessing the name property
succeeds" fails for the Projection variant, while for example
`Dilation.name` is indeed the pure parameter-derived string
`"Dilation(factor=2.0)"` for factor 2. -/
theorem projection_name_attribute_error :
    projectionNameProp = .error (.attributeError "Projection object has no attribute axis") ∧
    dilationNameProp 2 = "Dilation(factor=2.0)" := by
  constructor
  · rfl
  · rfl

/-! ## The exact solver (`ExactSolver.solve`, C4) -/

/-- Embedding of `issquare` (utils.py line 107):
`x.ndim == 2 and x.shape[0] == x.shape[1]`. -/
def issquare (x : NDArray) : Bool :=
  x.shape.length == 2 && x.shape.getD 0 0 == x.shape.getD 1 0

/-- The leading dimension `x.shape[0]` of an array. -/
def dim0 (x : NDArray) : ℕ := x.shape.getD 0 0

/-- A square 2-D array viewed as a Mathlib matrix. -/
def toMatrix (n : ℕ) (x : NDArray) : Matrix (Fin n) (Fin n) ℚ :=
  Matrix.of fun i j => x.val [i.val, j.val]

/-- Embedding of `isfullrank` (utils.py line 113) on the square matrices
`ExactSolver` feeds it: `np.linalg.matrix_rank(x) == min(x.shape)` — rank
is an external numerical primitive; for an exact square rational matrix,
rank n holds precisely when the determinant is nonzero, the criterion
used here (certified below against Mathlib's rank). -/
def isfullrankSq (n : ℕ) (x : NDArray) : Bool :=
  decide ((toMatrix n x).det ≠ 0)

theorem rank_lt_of_det_eq_zero {n : ℕ} (M : Matrix (Fin n) (Fin n) ℚ)
    (hd : M.det = 0) : M.rank < n := by
  obtain ⟨v, hv0, hMv⟩ := Matrix.exists_mulVec_eq_zero_iff.mpr hd
  have hker : LinearMap.ker M.mulVecLin ≠ ⊥ := by
    intro hbot
    have hv : v ∈ LinearMap.ker M.mulVecLin := by
      simpa [LinearMap.mem_ker] using hMv
    rw [hbot] at hv
    exact hv0 (by simpa using hv)
  have hkpos : 0 < Module.finrank ℚ (LinearMap.ker M.mulVecLin) := by
    rcases Nat.eq_zero_or_pos (Module.finrank ℚ (LinearMap.ker M.mulVecLin)) with h0 | hp
    · exact absurd (Submodule.finrank_eq_zero.mp h0) hker
    · exact hp
  have hsum := LinearMap.finrank_range_add_finrank_ker M.mulVecLin
  rw [Module.finrank_fin_fun] at hsum
  have hrank : M.rank = Module.finrank ℚ (LinearMap.range M.mulVecLin) := rfl
  omega

/-- The determinant criterion coincides with the rank criterion of
`isfullrank`: a square rational matrix has nonzero determinant iff its
rank is full. -/
theorem isfullrankSq_iff_rank (n : ℕ) (x : NDArray) :
    isfullrankSq n x = true ↔ (toMatrix n x).rank = n := by
  unfold isfullrankSq
  rw [decide_eq_true_eq]
  constructor
  · intro hd
    have hu : IsUnit (toMatrix n x) :=
      (Matrix.isUnit_iff_isUnit_det _).mpr (isUnit_iff_ne_zero.mpr hd)
    simpa using Matrix.rank_of_isUnit _ hu
  · intro hr hd
    exact absurd hr (Nat.ne_of_lt (rank_lt_of_det_eq_zero _ hd))

/-- Exact inverse of a nonsingular rational matrix
(`det⁻¹ • adjugate`). -/
def qInv {n : ℕ} (A : Matrix (Fin n) (Fin n) ℚ) : Matrix (Fin n) (Fin n) ℚ :=
  A.det⁻¹ • A.adjugate

theorem qInv_mul_eq_one {n : ℕ} (A : Matrix (Fin n) (Fin n) ℚ) (h : A.det ≠ 0) :
    A * qInv A = 1 := by
  unfold qInv
  rw [mul_smul_comm, Matrix.mul_adjugate, smul_smul, inv_mul_cancel₀ h, one_smul]

/-- Embedding of `np.linalg.solve(x, y)` on a nonsingular `n × n`
coefficient array (the only way `ExactSolver` reaches it): returns the
unique solution for `y` a length-n vector or a matrix with n rows, and
rejects any other `y` shape with numpy's `ValueError`. -/
def npLinalgSolve (n : ℕ) (x y : NDArray) : Except PyExc NDArray :=
  if y.shape = [n] then
    .ok { shape := [n],
          val := fun idx =>
            if h : idx.getD 0 0 < n then
              (qInv (toMatrix n x)).mulVec (fun i => y.val [i.val]) ⟨idx.getD 0 0, h⟩
            else 0 }
  else if y.shape.length = 2 ∧ y.shape.getD 0 0 = n then
    .ok { shape := [n, y.shape.getD 1 0],
          val := fun idx =>
            if h : idx.getD 0 0 < n ∧ idx.getD 1 0 < y.shape.getD 1 0 then
              (qInv (toMatrix n x) *
                Matrix.of (fun (i : Fin n) (j : Fin (y.shape.getD 1 0)) =>
                  y.val [i.val, j.val]))
                ⟨idx.getD 0 0, h.1⟩ ⟨idx.getD 1 0, h.2⟩
            else 0 }
  else .error (.valueError "solve: coefficient and ordinate shapes are incompatible")

/-- Embedding of `ExactSolver.solve` (solvers.py lines 50-57): raise a
linear-algebra error when `x` is not square, raise a linear-algebra error
when `x` is rank deficient, else return `np.linalg.solve(x, y)`. -/
def ExactSolver.solve (x y : NDArray) : Except PyExc NDArray :=
  if issquare x = false then .error (.linAlgError "Matrix is not square.")
  else if isfullrankSq (dim0 x) x = false then .error (.linAlgError "Matrix is rank deficient.")
  else npLinalgSolve (dim0 x) x y

/-- C4: `ExactSolver.solve` raises a linear-algebra-category error
precisely when `x` is not square or not full rank; on a square full-rank
`x` and a shape-compatible `y` (length-n vector or n-row matrix) it
returns the exact solution β of `x·β = y`. -/
theorem exact_solver_solve_spec (x y : NDArray) :
    ((∃ m, ExactSolver.solve x y = .error (.linAlgError m)) ↔
      ¬(issquare x = true ∧ isfullrankSq (dim0 x) x = true)) ∧
    (issquare x = true → isfullrankSq (dim0 x) x = true → y.shape = [dim0 x] →
      ∃ b, ExactSolver.solve x y = .ok b ∧
        (toMatrix (dim0 x) x).mulVec (fun i => b.val [i.val]) =
          (fun i => y.val [i.val])) ∧
    (issquare x = true → isfullrankSq (dim0 x) x = true →
      y.shape.length = 2 → y.shape.getD 0 0 = dim0 x →
      ∃ b, ExactSolver.solve x y = .ok b ∧
        toMatrix (dim0 x) x *
            Matrix.of (fun (i : Fin (dim0 x)) (j : Fin (y.shape.getD 1 0)) =>
              b.val [i.val, j.val]) =
          Matrix.of (fun i j => y.val [i.val, j.val])) := by
  refine ⟨⟨?_, ?_⟩, ?_, ?_⟩
  · rintro ⟨m, hm⟩ ⟨hsq, hfr⟩
    unfold ExactSolver.solve at hm
    rw [hsq, hfr] at hm
    simp only [Bool.true_eq_false, if_false] at hm
    unfold npLinalgSolve at hm
    split_ifs at hm <;> simp at hm
  · intro hns
    by_cases hsq : issquare x = true
    · have hfr : isfullrankSq (dim0 x) x = false := by
        rcases Bool.eq_false_or_eq_true (isfullrankSq (dim0 x) x) with h | h
        · exact absurd ⟨hsq, h⟩ hns
        · exact h
      refine ⟨"Matrix is rank deficient.", ?_⟩
      unfold ExactSolver.solve
      rw [hsq, hfr]
      simp
    · have hsq1 : issquare x = false := by
        rcases Bool.eq_false_or_eq_true (issquare x) with h | h
        · exact absurd h hsq
        · exact h
      refine ⟨"Matrix is not square.", ?_⟩
      unfold ExactSolver.solve
      rw [hsq1]
      simp
  · intro hsq hfr hy
    have hdet : (toMatrix (dim0 x) x).det ≠ 0 := by
      have := hfr
      unfold isfullrankSq at this
      rwa [decide_eq_true_eq] at this
    refine ⟨{ shape := [dim0 x],
              val := fun idx =>
                if h : idx.getD 0 0 < dim0 x then
                  (qInv (toMatrix (dim0 x) x)).mulVec (fun i => y.val [i.val])
                    ⟨idx.getD 0 0, h⟩
                else 0 }, ?_, ?_⟩
    · unfold ExactSolver.solve
      rw [hsq, hfr]
      simp only [Bool.true_eq_false, if_false]
      unfold npLinalgSolve
      rw [if_pos hy]
    · have hb : (fun i : Fin (dim0 x) =>
          (if h : (([i.val] : List ℕ).getD 0 0) < dim0 x then
            (qInv (toMatrix (dim0 x) x)).mulVec (fun i1 => y.val [i1.val])
              ⟨([i.val] : List ℕ).getD 0 0, h⟩
          else 0)) =
          (qInv (toMatrix (dim0 x) x)).mulVec (fun i1 => y.val [i1.val]) := by
        funext i
        rw [dif_pos (by simpa using i.isLt)]
        simp
      show (toMatrix (dim0 x) x).mulVec (fun i : Fin (dim0 x) =>
          (if h : (([i.val] : List ℕ).getD 0 0) < dim0 x then
            (qInv (toMatrix (dim0 x) x)).mulVec (fun i1 => y.val [i1.val])
              ⟨([i.val] : List ℕ).getD 0 0, h⟩
          else 0)) = (fun i => y.val [i.val])
      rw [hb, Matrix.mulVec_mulVec, qInv_mul_eq_one _ hdet, Matrix.one_mulVec]
  · intro hsq hfr hy2 hyn
    have hdet : (toMatrix (dim0 x) x).det ≠ 0 := by
      have := hfr
      unfold isfullrankSq at this
      rwa [decide_eq_true_eq] at this
    have hy1 : ¬(y.shape = [dim0 x]) := by
      intro h
      rw [h] at hy2
      simp at hy2
    refine ⟨{ shape := [dim0 x, y.shape.getD 1 0],
              val := fun idx =>
                if h : idx.getD 0 0 < dim0 x ∧ idx.getD 1 0 < y.shape.getD 1 0 then
                  (qInv (toMatrix (dim0 x) x) *
                    Matrix.of (fun (i : Fin (dim0 x)) (j : Fin (y.shape.getD 1 0)) =>
                      y.val [i.val, j.val]))
                    ⟨idx.getD 0 0, h.1⟩ ⟨idx.getD 1 0, h.2⟩
                else 0 }, ?_, ?_⟩
    · unfold ExactSolver.solve
      rw [hsq, hfr]
      simp only [Bool.true_eq_false, if_false]
      unfold npLinalgSolve
      rw [if_neg hy1, if_pos ⟨hy2, hyn⟩]
    · have hb : Matrix.of (fun (i : Fin (dim0 x)) (j : Fin (y.shape.getD 1 0)) =>
          (if h : (([i.val, j.val] : List ℕ).getD 0 0) < dim0 x ∧
              (([i.val, j.val] : List ℕ).getD 1 0) < y.shape.getD 1 0 then
            (qInv (toMatrix (dim0 x) x) *
              Matrix.of (fun (i1 : Fin (dim0 x)) (j1 : Fin (y.shape.getD 1 0)) =>
                y.val [i1.val, j1.val]))
              ⟨([i.val, j.val] : List ℕ).getD 0 0, h.1⟩
              ⟨([i.val, j.val] : List ℕ).getD 1 0, h.2⟩
          else 0)) =
          qInv (toMatrix (dim0 x) x) *
            Matrix.of (fun (i1 : Fin (dim0 x)) (j1 : Fin (y.shape.getD 1 0)) =>
              y.val [i1.val, j1.val]) := by
        funext i j
        rw [Matrix.of_apply, dif_pos ⟨by simpa using i.isLt, by simpa using j.isLt⟩]
        simp
      show toMatrix (dim0 x) x *
          Matrix.of (fun (i : Fin (dim0 x)) (j : Fin (y.shape.getD 1 0)) =>
            (if h : (([i.val, j.val] : List ℕ).getD 0 0) < dim0 x ∧
                (([i.val, j.val] : List ℕ).getD 1 0) < y.shape.getD 1 0 then
              (qInv (toMatrix (dim0 x) x) *
                Matrix.of (fun (i1 : Fin (dim0 x)) (j1 : Fin (y.shape.getD 1 0)) =>
                  y.val [i1.val, j1.val]))
                ⟨([i.val, j.val] : List ℕ).getD 0 0, h.1⟩
                ⟨([i.val, j.val] : List ℕ).getD 1 0, h.2⟩
            else 0)) =
          Matrix.of (fun i j => y.val [i.val, j.val])
      rw [hb, ← Matrix.mul_assoc, qInv_mul_eq_one _ hdet, Matrix.one_mul]

/-- The 2 × 2 identity array, a concrete square full-rank input. -/
def cIdent2 : NDArray :=
  ⟨[2, 2], fun idx => if idx = [0, 0] ∨ idx = [1, 1] then 1 else 0⟩

/-- The concrete right-hand side vector `[2, 3]`. -/
def cY2 : NDArray :=
  ⟨[2], fun idx => if idx = [0] then 2 else if idx = [1] then 3 else 0⟩

theorem exact_solver_solve_spec_witness :
    (issquare cIdent2 = true ∧ isfullrankSq (dim0 cIdent2) cIdent2 = true ∧
      cY2.shape = [dim0 cIdent2]) ∧
    (∃ b, ExactSolver.solve cIdent2 cY2 = .ok b ∧
      (toMatrix (dim0 cIdent2) cIdent2).mulVec (fun i => b.val [i.val]) =
        (fun i => cY2.val [i.val])) := by
  have h1 : issquare cIdent2 = true := by decide
  have h2 : isfullrankSq (dim0 cIdent2) cIdent2 = true := by
    unfold isfullrankSq
    rw [decide_eq_true_eq]
    have hd : (toMatrix (dim0 cIdent2) cIdent2).det = 1 := by
      show (toMatrix 2 cIdent2).det = 1
      rw [Matrix.det_fin_two]
      norm_num [toMatrix, cIdent2]
    rw [hd]
    norm_num
  exact ⟨⟨h1, h2, rfl⟩, (exact_solver_solve_spec cIdent2 cY2).2.1 h1 h2 rfl⟩

/-! ## The Shear transformation (transformations.py lines 120-153; C2, C7) -/

/-- numpy/einops transpose of an array by an axis permutation (the pure
permutation `rearrange` patterns of `Shear.apply`): output axis k is input
axis `perm[k]`, so `shape[k] = a.shape[perm[k]]` and the element at a
multi-index is read from the input position whose coordinate at axis
`perm[k]` is the output coordinate at axis k. -/
def transposeA (perm : List ℕ) (a : NDArray) : NDArray :=
  { shape := perm.map (fun j => a.shape.getD j 0),
    val := fun idx =>
      a.val ((List.range a.shape.length).map (fun j => idx.getD (List.indexOf j perm) 0)) }

/-- The permutation built by `Shear.apply` (transformations.py lines
136-139): `perm = list(range(ndim))`, `perm.remove(axis)`,
`perm.remove(source_axis)`, `perm += [axis, source_axis]`. -/
def shearPerm (n axis source_axis : ℕ) : List ℕ :=
  ((List.range n).filter (fun i => decide (i ≠ axis) && decide (i ≠ source_axis))) ++
    [axis, source_axis]

/-- `np.argsort(perm)` for `perm` a duplicate-free list of the values
`0 … n-1`: position k holds the index at which value k sits in `perm`. -/
def argsortPerm (perm : List ℕ) (n : ℕ) : List ℕ :=
  (List.range n).map (fun k => List.indexOf k perm)

/-- The in-place update `x_reordered[..., 0] += factor * x_reordered[..., 1]`
(transformations.py line 143), in value semantics on the reordered array
of an `n`-dimensional input: positions whose trailing coordinate is 0
receive `factor` times the value at the companion position with trailing
coordinate 1; every other position is unchanged. -/
def shearMut (factor : ℚ) (n : ℕ) (xr : NDArray) : NDArray :=
  { shape := xr.shape,
    val := fun idx =>
      if idx.getD (n - 1) 0 = 0 then
        xr.val idx + factor * xr.val (idx.set (n - 1) 1)
      else xr.val idx }


/-- Embedding of `Shear.apply` (transformations.py lines 129-149):
validate the axes (`ValueError` when out of range or equal), copy, move
`axis` and `source_axis` to the two trailing positions, run
`x_reordered[..., 0] += factor * x_reordered[..., 1]` — which indexes
positions 0 and 1 of the trailing (source) axis and so raises
`IndexError` when that axis has size below two — and transpose back by
`np.argsort(perm)`. -/
def shearApply (factor : ℚ) (axis source_axis : ℕ) (x : NDArray) : Except PyExc NDArray :=
  let n := x.shape.length
  if ¬(axis < n ∧ source_axis < n) then
    .error (.valueError "Invalid axis pair for shape")
  else if axis = source_axis then
    .error (.valueError "axis and source_axis must be different.")
  else
    let perm := shearPerm n axis source_axis
    let xr := transposeA perm x
    if xr.shape.getD (n - 1) 0 < 2 then
      .error (.indexError "index 1 is out of bounds")
    else
      .ok (transposeA (argsortPerm perm n) (shearMut factor n xr))

theorem getD_of_lt (l : List ℕ) (i d : ℕ) (h : i < l.length) : l.getD i d = l[i] := by
  simp [List.getD, List.getElem?_eq_getElem h]

theorem list_eq_of_getD {l1 l2 : List ℕ} (hlen : l1.length = l2.length)
    (h : ∀ k, k < l1.length → l1.getD k 0 = l2.getD k 0) : l1 = l2 := by
  apply List.ext_getElem hlen
  intro k h1 h2
  have hk := h k h1
  rwa [getD_of_lt _ _ _ h1, getD_of_lt _ _ _ h2] at hk

theorem getD_map_general (f : ℕ → ℕ) (l : List ℕ) {k : ℕ} (hk : k < l.length) (d : ℕ) :
    (l.map f).getD k d = f (l.getD k 0) := by
  rw [getD_of_lt _ _ _ (by simpa using hk), getD_of_lt _ _ _ hk, List.getElem_map]

theorem getD_map_range (f : ℕ → ℕ) {n k : ℕ} (hk : k < n) (d : ℕ) :
    ((List.range n).map f).getD k d = f k := by
  rw [getD_map_general f _ (by simpa using hk), getD_of_lt _ _ _ (by simpa using hk),
    List.getElem_range]

theorem getD_set_of_lt (l : List ℕ) (i j v : ℕ) (hj : j < l.length) :
    (l.set i v).getD j 0 = if i = j then v else l.getD j 0 := by
  rw [getD_of_lt _ _ _ (by simpa using hj), List.getElem_set]
  by_cases h : i = j
  · simp [h]
  · simp only [if_neg h]
    rw [getD_of_lt _ _ _ hj]

theorem shearPerm_mem {n a s : ℕ} (ha : a < n) (hs : s < n) (j : ℕ) :
    j ∈ shearPerm n a s ↔ j < n := by
  unfold shearPerm
  simp only [List.mem_append, List.mem_filter, List.mem_range, List.mem_cons,
    List.not_mem_nil, or_false, Bool.and_eq_true, decide_eq_true_eq]
  constructor
  · rintro (⟨hj, _⟩ | hj | hj)
    · exact hj
    · exact hj ▸ ha
    · exact hj ▸ hs
  · intro hj
    by_cases hja : j = a
    · exact Or.inr (Or.inl hja)
    by_cases hjs : j = s
    · exact Or.inr (Or.inr hjs)
    · exact Or.inl ⟨hj, hja, hjs⟩

theorem shearPerm_nodup {n a s : ℕ} (hne : a ≠ s) : (shearPerm n a s).Nodup := by
  unfold shearPerm
  rw [List.nodup_append]
  refine ⟨(List.nodup_range n).filter _, by simp [hne], ?_⟩
  intro t ht ht2
  simp only [List.mem_filter, List.mem_range, Bool.and_eq_true, decide_eq_true_eq] at ht
  simp only [List.mem_cons, List.not_mem_nil, or_false] at ht2
  rcases ht2 with h | h
  · exact ht.2.1 h
  · exact ht.2.2 h

theorem shearPerm_perm {n a s : ℕ} (ha : a < n) (hs : s < n) (hne : a ≠ s) :
    List.Perm (shearPerm n a s) (List.range n) := by
  refine (List.subperm_of_subset (shearPerm_nodup hne) ?_).antisymm
    (List.subperm_of_subset (List.nodup_range n) ?_)
  · intro j hj
    exact List.mem_range.mpr ((shearPerm_mem ha hs j).mp hj)
  · intro j hj
    exact (shearPerm_mem ha hs j).mpr (List.mem_range.mp hj)

theorem shearPerm_length {n a s : ℕ} (ha : a < n) (hs : s < n) (hne : a ≠ s) :
    (shearPerm n a s).length = n := by
  have := (shearPerm_perm ha hs hne).length_eq
  simpa using this

theorem getD_append_right_two (l : List ℕ) (a s : ℕ) :
    (l ++ [a, s]).getD (l.length + 1) 0 = s := by
  induction l with
  | nil => rfl
  | cons h t ih => simpa [List.getD_cons_succ] using ih

theorem shearPerm_getD_last {n a s : ℕ} (ha : a < n) (hs : s < n) (hne : a ≠ s) :
    (shearPerm n a s).getD (n - 1) 0 = s := by
  have hn2 : 2 ≤ n := by omega
  have hlen := shearPerm_length ha hs hne
  unfold shearPerm at hlen ⊢
  have hoth : ((List.range n).filter
      (fun i => decide (i ≠ a) && decide (i ≠ s))).length = n - 2 := by
    rw [List.length_append] at hlen
    simp only [List.length_cons, List.length_nil] at hlen
    omega
  have hidx : n - 1 = ((List.range n).filter
      (fun i => decide (i ≠ a) && decide (i ≠ s))).length + 1 := by omega
  rw [hidx]
  exact getD_append_right_two _ a s

theorem argsortPerm_getD (p : List ℕ) {n k : ℕ} (hk : k < n) :
    (argsortPerm p n).getD k 0 = List.indexOf k p := by
  unfold argsortPerm
  exact getD_map_range _ hk 0

theorem permIndexOf_lt {p : List ℕ} {n j : ℕ} (hlen : p.length = n)
    (hmem : ∀ i, i ∈ p ↔ i < n) (hj : j < n) : List.indexOf j p < n := by
  have := List.indexOf_lt_length.mpr ((hmem j).mpr hj)
  rwa [hlen] at this

theorem permGetD_indexOf {p : List ℕ} {n j : ℕ} (hlen : p.length = n)
    (hmem : ∀ i, i ∈ p ↔ i < n) (hj : j < n) : p.getD (List.indexOf j p) 0 = j := by
  have hlt : List.indexOf j p < p.length := List.indexOf_lt_length.mpr ((hmem j).mpr hj)
  rw [getD_of_lt _ _ _ hlt]
  exact List.getElem_indexOf hlt

theorem permGetD_lt {p : List ℕ} {n k : ℕ} (hlen : p.length = n)
    (hmem : ∀ i, i ∈ p ↔ i < n) (hk : k < n) : p.getD k 0 < n := by
  have hk1 : k < p.length := by omega
  rw [getD_of_lt _ _ _ hk1]
  exact (hmem _).mp (List.getElem_mem hk1)

theorem permIndexOf_getD {p : List ℕ} {n k : ℕ} (hlen : p.length = n) (hnd : p.Nodup)
    (hk : k < n) : List.indexOf (p.getD k 0) p = k := by
  have hk1 : k < p.length := by omega
  rw [getD_of_lt _ _ _ hk1]
  exact List.indexOf_getElem hnd k hk1

theorem indexOf_eq_of_getD {l : List ℕ} {v : ℕ} :
    ∀ {k : ℕ}, k < l.length → l.getD k 0 = v → (∀ i, i < k → l.getD i 0 ≠ v) →
      List.indexOf v l = k := by
  induction l with
  | nil => intro k hk; simp at hk
  | cons h t ih =>
      intro k hk hv hmin
      cases k with
      | zero =>
          rw [List.getD_cons_zero] at hv
          simp [List.indexOf_cons, hv]
      | succ k1 =>
          have hne : h ≠ v := by
            have := hmin 0 (Nat.succ_pos k1)
            rwa [List.getD_cons_zero] at this
          rw [List.getD_cons_succ] at hv
          have hmin1 : ∀ i, i < k1 → t.getD i 0 ≠ v := by
            intro i hi
            have := hmin (i + 1) (by omega)
            rwa [List.getD_cons_succ] at this
          have hk1 : k1 < t.length := by
            simpa using hk
          rw [List.indexOf_cons]
          simp only [hne, beq_iff_eq, if_false, cond_eq_if]
          rw [ih hk1 hv hmin1]

theorem argsort_indexOf {p : List ℕ} {n j : ℕ} (hlen : p.length = n) (hnd : p.Nodup)
    (hmem : ∀ i, i ∈ p ↔ i < n) (hj : j < n) :
    List.indexOf j (argsortPerm p n) = p.getD j 0 := by
  unfold argsortPerm
  apply indexOf_eq_of_getD
  · simpa using permGetD_lt hlen hmem hj
  · rw [getD_map_range _ (permGetD_lt hlen hmem hj)]
    exact permIndexOf_getD hlen hnd hj
  · intro i hi
    have hin : i < n := lt_trans hi (permGetD_lt hlen hmem hj)
    rw [getD_map_range _ hin]
    intro hcon
    have := permGetD_indexOf hlen hmem hin
    rw [hcon] at this
    omega

theorem transposeA_val (perm : List ℕ) (a : NDArray) (idx : List ℕ) :
    (transposeA perm a).val idx =
      a.val ((List.range a.shape.length).map (fun j => idx.getD (List.indexOf j perm) 0)) :=
  rfl

theorem shearMut_val (f : ℚ) (n : ℕ) (xr : NDArray) (idx : List ℕ) :
    (shearMut f n xr).val idx =
      (if idx.getD (n - 1) 0 = 0 then
        xr.val idx + f * xr.val (idx.set (n - 1) 1)
      else xr.val idx) :=
  rfl

/-- What `Shear.apply` computes on the non-raising path: for valid
distinct axes and a source dimension of size at least 2, it succeeds and
returns the array whose entries at source-coordinate 0 receive `factor`
times the entry at source-coordinate 1 of the same position, all other
entries unchanged — a formula in which `axis` does not occur. -/
theorem shearApply_ok_val {x : NDArray} (f : ℚ) {a s : ℕ}
    (ha : a < x.shape.length) (hs : s < x.shape.length) (hne : a ≠ s)
    (hdim : 2 ≤ x.shape.getD s 0) :
    ∃ r, shearApply f a s x = .ok r ∧ r.shape = x.shape ∧
      ∀ idx, idx.length = x.shape.length →
        r.val idx =
          (if idx.getD s 0 = 0 then x.val idx + f * x.val (idx.set s 1)
          else x.val idx) := by
  have hlen := shearPerm_length ha hs hne
  have hmem := shearPerm_mem ha hs
  have hnd : (shearPerm x.shape.length a s).Nodup := shearPerm_nodup hne
  have hlast := shearPerm_getD_last ha hs hne
  have hn1 : 0 < x.shape.length := by omega
  have hcheck : (transposeA (shearPerm x.shape.length a s) x).shape.getD
      (x.shape.length - 1) 0 = x.shape.getD s 0 := by
    show ((shearPerm x.shape.length a s).map
      (fun j => x.shape.getD j 0)).getD (x.shape.length - 1) 0 = _
    rw [getD_map_general _ _ (by rw [hlen]; omega), hlast]
  refine ⟨transposeA (argsortPerm (shearPerm x.shape.length a s) x.shape.length)
      (shearMut f x.shape.length (transposeA (shearPerm x.shape.length a s) x)),
    ?_, ?_, ?_⟩
  · simp only [shearApply]
    rw [if_neg (not_not_intro ⟨ha, hs⟩), if_neg hne, if_neg (by rw [hcheck]; omega)]
  · show (argsortPerm (shearPerm x.shape.length a s) x.shape.length).map
        (fun j => ((shearPerm x.shape.length a s).map
          (fun j1 => x.shape.getD j1 0)).getD j 0) = x.shape
    apply list_eq_of_getD
    · simp [argsortPerm]
    · intro k hk
      have hkn : k < x.shape.length := by simpa [argsortPerm] using hk
      rw [getD_map_general _ _ (by simpa [argsortPerm] using hkn)]
      rw [argsortPerm_getD _ hkn]
      have hip := permIndexOf_lt hlen hmem hkn
      rw [getD_map_general _ _ (by rw [hlen]; exact hip)]
      rw [permGetD_indexOf hlen hmem hkn]
  · intro idx hidx
    rw [transposeA_val]
    have hml : (shearMut f x.shape.length
        (transposeA (shearPerm x.shape.length a s) x)).shape.length = x.shape.length := by
      show ((shearPerm x.shape.length a s).map (fun j => x.shape.getD j 0)).length = _
      rw [List.length_map, hlen]
    rw [hml]
    have hJ : (List.range x.shape.length).map
        (fun j => idx.getD (List.indexOf j
          (argsortPerm (shearPerm x.shape.length a s) x.shape.length)) 0) =
        (List.range x.shape.length).map
          (fun j => idx.getD ((shearPerm x.shape.length a s).getD j 0) 0) :=
      List.map_congr_left (fun j hj => by
        rw [argsort_indexOf hlen hnd hmem (List.mem_range.mp hj)])
    rw [hJ, shearMut_val]
    have hJlast : ((List.range x.shape.length).map
        (fun j => idx.getD ((shearPerm x.shape.length a s).getD j 0) 0)).getD
          (x.shape.length - 1) 0 = idx.getD s 0 := by
      rw [getD_map_range _ (by omega), hlast]
    rw [hJlast]
    simp only [transposeA_val]
    have hsc : (List.range x.shape.length).map (fun j =>
        ((List.range x.shape.length).map
          (fun j1 => idx.getD ((shearPerm x.shape.length a s).getD j1 0) 0)).getD
            (List.indexOf j (shearPerm x.shape.length a s)) 0) = idx := by
      apply list_eq_of_getD
      · simp [hidx]
      · intro k hk
        have hkn : k < x.shape.length := by simpa using hk
        rw [getD_map_range _ hkn]
        have hip := permIndexOf_lt hlen hmem hkn
        rw [getD_map_range _ hip, permGetD_indexOf hlen hmem hkn]
    have hscset : (List.range x.shape.length).map (fun j =>
        (((List.range x.shape.length).map
          (fun j1 => idx.getD ((shearPerm x.shape.length a s).getD j1 0) 0)).set
            (x.shape.length - 1) 1).getD
              (List.indexOf j (shearPerm x.shape.length a s)) 0) = idx.set s 1 := by
      apply list_eq_of_getD
      · simp [hidx]
      · intro k hk
        have hkn : k < x.shape.length := by simpa using hk
        rw [getD_map_range _ hkn]
        have hip := permIndexOf_lt hlen hmem hkn
        rw [getD_set_of_lt _ _ _ _ (by simpa using hip)]
        by_cases hks : k = s
        · have hio : List.indexOf k (shearPerm x.shape.length a s) = x.shape.length - 1 := by
            have h2 := permIndexOf_getD hlen hnd (k := x.shape.length - 1) (by omega)
            rw [hlast] at h2
            rw [hks]
            exact h2
          rw [if_pos hio.symm]
          rw [getD_set_of_lt _ _ _ _ (by omega)]
          rw [if_pos hks.symm]
        · have hio : ¬(x.shape.length - 1 = List.indexOf k (shearPerm x.shape.length a s)) := by
            intro hcon
            have := permGetD_indexOf hlen hmem hkn
            rw [← hcon, hlast] at this
            exact hks this.symm
          rw [if_neg hio]
          rw [getD_map_range _ hip, permGetD_indexOf hlen hmem hkn]
          rw [getD_set_of_lt _ _ _ _ (by omega)]
          rw [if_neg (fun hcon => hks hcon.symm)]
    rw [hsc, hscset]

theorem validIdx_length : ∀ {sh idx : List ℕ}, validIdx sh idx = true → idx.length = sh.length := by
  intro sh
  induction sh with
  | nil =>
      intro idx h
      cases idx with
      | nil => rfl
      | cons i t => simp [validIdx] at h
  | cons n sh ih =>
      intro idx h
      cases idx with
      | nil => simp [validIdx] at h
      | cons i t =>
          simp only [validIdx, Bool.and_eq_true] at h
          simp [ih h.2]

theorem shear_check_shape {x : NDArray} {a s : ℕ} (ha : a < x.shape.length)
    (hs : s < x.shape.length) (hne : a ≠ s) :
    (transposeA (shearPerm x.shape.length a s) x).shape.getD
      (x.shape.length - 1) 0 = x.shape.getD s 0 := by
  show ((shearPerm x.shape.length a s).map
    (fun j => x.shape.getD j 0)).getD (x.shape.length - 1) 0 = _
  rw [getD_map_general _ _ (by rw [shearPerm_length ha hs hne]; omega),
    shearPerm_getD_last ha hs hne]

/-- A concrete array of shape `[2, 1]` (second dimension of size one). -/
def cX21 : NDArray := ⟨[2, 1], fun _ => 0⟩

/-- C2 refuted at a concrete input: on the shape-`[2, 1]` array with the
valid distinct axis pair `axis = 0`, `source_axis = 1`, `Shear.apply`
raises `IndexError` (the update reads index 1 of a size-1 source axis)
instead of returning a sheared array — and instead of the `ValueError`
the claim reserves for equal or out-of-range axes. -/
theorem shear_claimed_semantics_counterexample :
    shearApply 1 0 1 cX21 = .error (.indexError "index 1 is out of bounds") := rfl

/-- C2 (amended): for valid distinct axes, `Shear.apply` raises
`ValueError` on an invalid or equal axis pair, raises `IndexError` when
the source-axis dimension has size below two, and otherwise returns the
array in which every position with source-axis coordinate 0 receives
`factor` times the value at the companion position with source-axis
coordinate 1, all other positions unchanged — a result in which `axis`
plays no role (the last conjunct: any other valid axis paired with the
same source axis yields an extensionally equal array). -/
theorem shear_apply_amended (x : NDArray) (f : ℚ) (a s : ℕ) :
    (a < x.shape.length → s < x.shape.length → a ≠ s → 2 ≤ x.shape.getD s 0 →
      ∃ r, shearApply f a s x = .ok r ∧ r.shape = x.shape ∧
        (∀ idx, validIdx x.shape idx = true →
          r.val idx =
            (if idx.getD s 0 = 0 then x.val idx + f * x.val (idx.set s 1)
            else x.val idx)) ∧
        (∀ a2, a2 < x.shape.length → a2 ≠ s →
          ∃ r2, shearApply f a2 s x = .ok r2 ∧ r2.Eqv r)) ∧
    (¬(a < x.shape.length ∧ s < x.shape.length) →
      shearApply f a s x = .error (.valueError "Invalid axis pair for shape")) ∧
    (a < x.shape.length → s < x.shape.length → a = s →
      shearApply f a s x = .error (.valueError "axis and source_axis must be different.")) ∧
    (a < x.shape.length → s < x.shape.length → a ≠ s → x.shape.getD s 0 < 2 →
      shearApply f a s x = .error (.indexError "index 1 is out of bounds")) := by
  refine ⟨?_, ?_, ?_, ?_⟩
  · intro ha hs hne hdim
    obtain ⟨r, hr, hsh, hval⟩ := shearApply_ok_val f ha hs hne hdim
    refine ⟨r, hr, hsh, ?_, ?_⟩
    · intro idx hv
      exact hval idx (validIdx_length hv)
    · intro a2 ha2 hne2
      obtain ⟨r2, hr2, hsh2, hval2⟩ := shearApply_ok_val f ha2 hs hne2 hdim
      refine ⟨r2, hr2, hsh2.trans hsh.symm, ?_⟩
      intro idx hvidx
      rw [hsh2] at hvidx
      rw [hval2 idx (validIdx_length hvidx), hval idx (validIdx_length hvidx)]
  · intro hinv
    simp only [shearApply]
    rw [if_pos hinv]
  · intro ha hs heq
    simp only [shearApply]
    rw [if_neg (not_not_intro ⟨ha, hs⟩), if_pos heq]
  · intro ha hs hne hdim
    simp only [shearApply]
    rw [if_neg (not_not_intro ⟨ha, hs⟩), if_neg hne,
      if_pos (by rw [shear_check_shape ha hs hne]; omega)]

/-- A concrete 2 × 2 array with four distinct entries. -/
def cX22 : NDArray :=
  ⟨[2, 2], fun idx =>
    if idx = [0, 0] then 1 else if idx = [0, 1] then 2
    else if idx = [1, 0] then 3 else if idx = [1, 1] then 4 else 0⟩

theorem shear_apply_amended_witness :
    ((0 : ℕ) < cX22.shape.length ∧ (1 : ℕ) < cX22.shape.length ∧ (0 : ℕ) ≠ 1 ∧
      2 ≤ cX22.shape.getD 1 0) ∧
    (∃ r, shearApply 1 0 1 cX22 = .ok r ∧ r.shape = cX22.shape ∧
      (∀ idx, validIdx cX22.shape idx = true →
        r.val idx =
          (if idx.getD 1 0 = 0 then cX22.val idx + 1 * cX22.val (idx.set 1 1)
          else cX22.val idx)) ∧
      (∀ a2, a2 < cX22.shape.length → a2 ≠ 1 →
        ∃ r2, shearApply 1 a2 1 cX22 = .ok r2 ∧ r2.Eqv r)) :=
  ⟨⟨by decide, by decide, by decide, by decide⟩,
    (shear_apply_amended cX22 1 0 1).1 (by decide) (by decide) (by decide) (by decide)⟩

/-- A concrete all-ones array of shape `[3, 1]`. -/
def cX31 : NDArray := ⟨[3, 1], fun _ => 1⟩

/-- C7 refuted at a concrete input: with factor 0 and the valid distinct
axis pair `axis = 0`, `source_axis = 1`, `Shear.apply` on a shape-`[3, 1]`
array raises `IndexError` instead of returning the array unchanged: the
zero-factor update still reads index 1 of the size-1 source axis. -/
theorem shear_zero_factor_counterexample :
    shearApply 0 0 1 cX31 = .error (.indexError "index 1 is out of bounds") := rfl

/-- C7 (amended): shear with factor 0 is the identity transform for every
valid distinct axis pair whose source-axis dimension has size at least
two (extensional equality of arrays). -/
theorem shear_zero_factor_identity {x : NDArray} {a s : ℕ}
    (ha : a < x.shape.length) (hs : s < x.shape.length) (hne : a ≠ s)
    (hdim : 2 ≤ x.shape.getD s 0) :
    ∃ r, shearApply 0 a s x = .ok r ∧ r.Eqv x := by
  obtain ⟨r, hr, hsh, hval⟩ := shearApply_ok_val 0 ha hs hne hdim
  refine ⟨r, hr, hsh, ?_⟩
  intro idx hv
  rw [hsh] at hv
  rw [hval idx (validIdx_length hv)]
  by_cases h : idx.getD s 0 = 0
  · rw [if_pos h]
    ring
  · rw [if_neg h]

/-- A concrete 2 × 3 array with distinct entries. -/
def cX23 : NDArray :=
  ⟨[2, 3], fun idx =>
    if idx = [0, 0] then 5 else if idx = [0, 1] then 6
    else if idx = [0, 2] then 7 else if idx = [1, 0] then 8
    else if idx = [1, 1] then 9 else if idx = [1, 2] then 10 else 0⟩

theorem shear_zero_factor_identity_witness :
    ((1 : ℕ) < cX23.shape.length ∧ (0 : ℕ) < cX23.shape.length ∧ (1 : ℕ) ≠ 0 ∧
      2 ≤ cX23.shape.getD 0 0) ∧
    (∃ r, shearApply 0 1 0 cX23 = .ok r ∧ r.Eqv cX23) :=
  ⟨⟨by decide, by decide, by decide, by decide⟩,
    shear_zero_factor_identity (by decide) (by decide) (by decide) (by decide)⟩

/-! ## Frame property of `apply` (C8): the input array is never mutated -/

/-- The store of live array objects, for making numpy's in-place effects
explicit: a reference is an index into the store; `np.copy` allocates a
fresh cell; an in-place update (`*=`, `+=`) writes the referenced cell. -/
abbrev Heap : Type := List NDArray

/-- Default array for out-of-store reads (never hit in the programs). -/
def emptyArr : NDArray := ⟨[], fun _ => 0⟩

/-- Dereference. -/
def readH (h : Heap) (r : ℕ) : NDArray := h.getD r emptyArr

/-- Allocate a fresh cell holding `a`; returns the grown store and the
fresh reference. -/
def allocH (h : Heap) (a : NDArray) : Heap × ℕ := (h ++ [a], h.length)

/-- Overwrite the cell at `r`. -/
def writeH (h : Heap) (r : ℕ) (a : NDArray) : Heap := h.set r a

/-- Every cell that existed before still holds its old contents. -/
def HeapFrame (h h2 : Heap) : Prop := ∀ i, i < h.length → readH h2 i = readH h i

/-- Embedding of `Identity.apply` (transformations.py lines 49-50):
`return x` — the same object, nothing written. -/
def identityApplyH (h : Heap) (x : ℕ) : Except PyExc (Heap × ℕ) :=
  .ok (h, x)

/-- Embedding of `Rotation.apply` (transformations.py lines 63-64):
`return np.dot(x, self.rotation)` — the dense product is the external
primitive `npDot`; its result is a fresh array. -/
def rotationApplyH (npDot : NDArray → NDArray → Except PyExc NDArray) (rot : NDArray)
    (h : Heap) (x : ℕ) : Except PyExc (Heap × ℕ) :=
  match npDot (readH h x) rot with
  | .error e => .error e
  | .ok v => .ok (allocH h v)

/-- Embedding of `Inverse.apply` (transformations.py lines 75-79): check
the trailing dimensions are square, then `return np.linalg.inv(x)` — the
inverse is the external primitive `npInv`; its result is a fresh array. -/
def inverseApplyH (npInv : NDArray → Except PyExc NDArray) (h : Heap) (x : ℕ) :
    Except PyExc (Heap × ℕ) :=
  let a := readH h x
  if a.shape.getD (a.shape.length - 1) 0 ≠ a.shape.getD (a.shape.length - 2) 0 then
    .error (.valueError "Last two dimensions must form square matrices.")
  else
    match npInv a with
    | .error e => .error e
    | .ok v => .ok (allocH h v)

/-- Embedding of `Reflection.apply` (transformations.py lines 92-100):
validate the axis, `x_copy = np.copy(x)` (fresh cell), the identity
`rearrange` (a view of the same buffer), then `x_copy *= -1` — an
in-place write targeting the copy's cell, never the input's. -/
def reflectionApplyH (axis : ℕ) (h : Heap) (x : ℕ) : Except PyExc (Heap × ℕ) :=
  let a := readH h x
  if ¬(axis < a.shape.length) then
    .error (.valueError "Invalid axis for input shape")
  else
    let hc := allocH h a
    let h2 := writeH hc.1 hc.2 ⟨a.shape, fun idx => -(a.val idx)⟩
    .ok (h2, hc.2)

/-- Embedding of `Dilation.apply` (transformations.py lines 113-114):
`return x * self.factor` — a fresh array. -/
def dilationApplyH (factor : ℚ) (h : Heap) (x : ℕ) : Except PyExc (Heap × ℕ) :=
  let a := readH h x
  .ok (allocH h ⟨a.shape, fun idx => a.val idx * factor⟩)

/-- Embedding of `Shear.apply` with its effects explicit
(transformations.py lines 129-149): validate, `np.copy` (fresh cell),
`rearrange` to the reordered layout (materialised fresh), the in-place
`+=` writing the reordered cell, and the final `rearrange` back (fresh);
the input's cell is never the target of a write. -/
def shearApplyH (factor : ℚ) (axis source_axis : ℕ) (h : Heap) (x : ℕ) :
    Except PyExc (Heap × ℕ) :=
  let a := readH h x
  let n := a.shape.length
  if ¬(axis < n ∧ source_axis < n) then
    .error (.valueError "Invalid axis pair for shape")
  else if axis = source_axis then
    .error (.valueError "axis and source_axis must be different.")
  else
    let hc := allocH h a
    let perm := shearPerm n axis source_axis
    let hr := allocH hc.1 (transposeA perm a)
    if (transposeA perm a).shape.getD (n - 1) 0 < 2 then
      .error (.indexError "index 1 is out of bounds")
    else
      let h2 := writeH hr.1 hr.2 (shearMut factor n (transposeA perm a))
      .ok (allocH h2 (transposeA (argsortPerm perm n) (shearMut factor n (transposeA perm a))))

/-- Embedding of `Projection.apply` (transformations.py lines 162-165):
check the trailing dimension against the projection matrix, then
`return np.matmul(x, self.projection.T)` — the product is the external
primitive `npMatmulT`; its result is a fresh array. -/
def projectionApplyH (npMatmulT : NDArray → NDArray → NDArray) (proj : NDArray)
    (h : Heap) (x : ℕ) : Except PyExc (Heap × ℕ) :=
  let a := readH h x
  if a.shape.getD (a.shape.length - 1) 0 ≠ proj.shape.getD 1 0 then
    .error (.valueError "Last dimension must match projection matrix size.")
  else .ok (allocH h (npMatmulT a proj))

theorem getDA_of_lt {α : Type} (l : List α) (i : ℕ) (d : α) (h : i < l.length) :
    l.getD i d = l[i] := by
  simp [List.getD, List.getElem?_eq_getElem h]

theorem readH_append (h : Heap) (a : NDArray) {i : ℕ} (hi : i < h.length) :
    readH (h ++ [a]) i = readH h i := by
  unfold readH
  rw [getDA_of_lt _ _ _ (by simp; omega), getDA_of_lt _ _ _ hi]
  exact List.getElem_append_left hi

theorem readH_set_ne (hh : Heap) (r i : ℕ) (v : NDArray) (hne : i ≠ r) :
    readH (hh.set r v) i = readH hh i := by
  unfold readH
  simp [List.getD, List.getElem?_set_ne (fun he => hne he.symm)]

theorem frame_refl (h : Heap) : HeapFrame h h := fun _ _ => rfl

theorem frame_alloc (h : Heap) (a : NDArray) : HeapFrame h (h ++ [a]) :=
  fun _ hi => readH_append h a hi

/-- C8: every Transformation variant's `apply` leaves each pre-existing
array cell — in particular the caller's input — unchanged: the variants
that must mutate (Reflection, Shear) write only to cells freshly
allocated by their `np.copy`, the others allocate fresh result arrays (or
return the input object itself unwritten, as Identity does), whatever the
external numerical primitives compute. -/
theorem apply_variants_no_input_mutation :
    (∀ (h : Heap) (x : ℕ) (h2 : Heap) (r : ℕ),
      identityApplyH h x = .ok (h2, r) → HeapFrame h h2) ∧
    (∀ npDot (rot : NDArray) (h : Heap) (x : ℕ) (h2 : Heap) (r : ℕ),
      rotationApplyH npDot rot h x = .ok (h2, r) → HeapFrame h h2) ∧
    (∀ npInv (h : Heap) (x : ℕ) (h2 : Heap) (r : ℕ),
      inverseApplyH npInv h x = .ok (h2, r) → HeapFrame h h2) ∧
    (∀ (axis : ℕ) (h : Heap) (x : ℕ) (h2 : Heap) (r : ℕ),
      reflectionApplyH axis h x = .ok (h2, r) → HeapFrame h h2) ∧
    (∀ (factor : ℚ) (h : Heap) (x : ℕ) (h2 : Heap) (r : ℕ),
      dilationApplyH factor h x = .ok (h2, r) → HeapFrame h h2) ∧
    (∀ (factor : ℚ) (axis s : ℕ) (h : Heap) (x : ℕ) (h2 : Heap) (r : ℕ),
      shearApplyH factor axis s h x = .ok (h2, r) → HeapFrame h h2) ∧
    (∀ npMatmulT (proj : NDArray) (h : Heap) (x : ℕ) (h2 : Heap) (r : ℕ),
      projectionApplyH npMatmulT proj h x = .ok (h2, r) → HeapFrame h h2) := by
  refine ⟨?_, ?_, ?_, ?_, ?_, ?_, ?_⟩
  · intro h x h2 r heq
    simp only [identityApplyH, Except.ok.injEq, Prod.mk.injEq] at heq
    rw [← heq.1]
    exact frame_refl h
  · intro npDot rot h x h2 r heq
    unfold rotationApplyH at heq
    cases hc : npDot (readH h x) rot with
    | error e => rw [hc] at heq; cases heq
    | ok v =>
        rw [hc] at heq
        simp only [allocH, Except.ok.injEq, Prod.mk.injEq] at heq
        rw [← heq.1]
        exact frame_alloc h v
  · intro npInv h x h2 r heq
    simp only [inverseApplyH] at heq
    split_ifs at heq
    cases hc : npInv (readH h x) with
    | error e => rw [hc] at heq; cases heq
    | ok v =>
        rw [hc] at heq
        simp only [allocH, Except.ok.injEq, Prod.mk.injEq] at heq
        rw [← heq.1]
        exact frame_alloc h v
  · intro axis h x h2 r heq
    simp only [reflectionApplyH] at heq
    split_ifs at heq
    simp only [allocH, writeH, Except.ok.injEq, Prod.mk.injEq] at heq
    rw [← heq.1]
    intro i hi
    rw [readH_set_ne _ _ _ _ (by omega)]
    exact readH_append h _ hi
  · intro factor h x h2 r heq
    simp only [dilationApplyH, allocH, Except.ok.injEq, Prod.mk.injEq] at heq
    rw [← heq.1]
    exact frame_alloc h _
  · intro factor axis s h x h2 r heq
    simp only [shearApplyH] at heq
    split_ifs at heq
    simp only [allocH, writeH, Except.ok.injEq, Prod.mk.injEq] at heq
    rw [← heq.1]
    intro i hi
    rw [readH_append _ _ (by simp; omega)]
    rw [readH_set_ne _ _ _ _ (by simp; omega)]
    rw [readH_append (h ++ [readH h x]) _ (by simp; omega)]
    exact readH_append h _ hi
  · intro npMatmulT proj h x h2 r heq
    simp only [projectionApplyH] at heq
    split_ifs at heq
    simp only [allocH, Except.ok.injEq, Prod.mk.injEq] at heq
    rw [← heq.1]
    exact frame_alloc h _

/-- A one-cell store holding the concrete 2 × 2 array. -/
def hW : Heap := [cX22]

/-- The negation of `cX22` (what Reflection's copy holds after `*= -1`). -/
def negX22 : NDArray := ⟨cX22.shape, fun idx => -(cX22.val idx)⟩

/-- `cX22` scaled by two (Dilation's fresh result). -/
def dilX22 : NDArray := ⟨cX22.shape, fun idx => cX22.val idx * 2⟩

/-- The reordered copy Shear builds from `cX22`. -/
def shearT22 : NDArray := transposeA (shearPerm 2 0 1) cX22

/-- The reordered copy after the in-place `+=`. -/
def shearM22 : NDArray := shearMut 1 2 shearT22

/-- The store after `Shear.apply` on `cX22`: input, copy, mutated
reordered copy, final result — the input cell untouched. -/
def hShear : Heap :=
  [cX22, cX22, shearM22, transposeA (argsortPerm (shearPerm 2 0 1) 2) shearM22]

theorem apply_variants_no_input_mutation_witness :
    (identityApplyH hW 0 = .ok (hW, 0) ∧ HeapFrame hW hW) ∧
    (rotationApplyH (fun a _ => .ok a) cX22 hW 0 = .ok ([cX22, cX22], 1) ∧
      HeapFrame hW [cX22, cX22]) ∧
    (inverseApplyH (fun a => .ok a) hW 0 = .ok ([cX22, cX22], 1) ∧
      HeapFrame hW [cX22, cX22]) ∧
    (reflectionApplyH 0 hW 0 = .ok ([cX22, negX22], 1) ∧
      HeapFrame hW [cX22, negX22]) ∧
    (dilationApplyH 2 hW 0 = .ok ([cX22, dilX22], 1) ∧
      HeapFrame hW [cX22, dilX22]) ∧
    (shearApplyH 1 0 1 hW 0 = .ok (hShear, 3) ∧ HeapFrame hW hShear) ∧
    (projectionApplyH (fun a _ => a) cX22 hW 0 = .ok ([cX22, cX22], 1) ∧
      HeapFrame hW [cX22, cX22]) := by
  refine ⟨⟨rfl, ?_⟩, ⟨rfl, ?_⟩, ⟨rfl, ?_⟩, ⟨rfl, ?_⟩, ⟨rfl, ?_⟩, ⟨rfl, ?_⟩, ⟨rfl, ?_⟩⟩
  · exact apply_variants_no_input_mutation.1 hW 0 hW 0 rfl
  · exact apply_variants_no_input_mutation.2.1 (fun a _ => .ok a) cX22 hW 0 _ 1 rfl
  · exact apply_variants_no_input_mutation.2.2.1 (fun a => .ok a) hW 0 _ 1 rfl
  · exact apply_variants_no_input_mutation.2.2.2.1 0 hW 0 _ 1 rfl
  · exact apply_variants_no_input_mutation.2.2.2.2.1 2 hW 0 _ 1 rfl
  · exact apply_variants_no_input_mutation.2.2.2.2.2.1 1 0 1 hW 0 _ 3 rfl
  · exact apply_variants_no_input_mutation.2.2.2.2.2.2 (fun a _ => a) cX22 hW 0 _ 1 rfl
